import Mathlib

/-!
# Verification of the dash-with-transformer prediction engine

Shallow embedding of `src/backend/dash_with_transformer/engine.py`
(`BytePredictionEngine`): the LRU prefix cache (`_put_cache`,
`_longest_cached_prefix`), the state advancer (`_predict_one`), the trie
expander (`_predict_trie`) and the batch entry point (`predict_batch`).

Modelling choices:
* A byte is `Fin 256`; a cache key (a Python `bytes` value) is `List (Fin 256)`.
* The cache, a Python `OrderedDict`, is a `List (List (Fin 256) × σ)` of
  key/value pairs ordered front = least recently used (oldest) to back = most
  recently used, matching `OrderedDict` iteration order; `popitem(last=False)`
  pops the front, plain insertion appends at the back, `move_to_end` moves to
  the back, `move_to_end(last=False)` moves to the front.
* The external model state (`ByteBeamState`) is an opaque type parameter `σ`;
  `state.prune() << byte` is an abstract function `adv : σ → Fin 256 → σ`, and
  the composite `with_mode(WITH_EOS)` / `logp_next()` / `np.exp(...)[:256]`
  query at the end of `_predict_one` is an abstract function
  `qd : σ → Fin 256 → ℚ` (probabilities are modelled by rationals).
-/

set_option autoImplicit false

namespace DashEngine

/-- A byte value, 0–255. -/
abbrev Byte := Fin 256

/-- A byte string, used as cache key and prediction context. -/
abbrev Key := List Byte

/-- A 256-entry next-byte distribution (the `probs` list built by
`_predict_one` from `np.exp(logp.ps[:256]).tolist()`). -/
abbrev Dist := Byte → ℚ

/-- The engine cache `self._cache : OrderedDict[bytes, ByteBeamState]`,
front = least recently used. -/
abbrev Cache (σ : Type) := List (Key × σ)

variable {σ : Type}

/-- First value stored under key `k` (`self._cache[k]`, and `k in self._cache`
when the result is `some`). -/
def findVal : Cache σ → Key → Option σ
  | [], _ => none
  | (k', v) :: rest, k => if k' = k then some v else findVal rest k

/-- Remove every entry whose key is `k`. -/
def eraseKey (c : Cache σ) (k : Key) : Cache σ :=
  c.filter (fun kv => kv.1 ≠ k)

/-- Model of `OrderedDict.move_to_end(k)`: move the entry for `k` to the
most-recently-used (back) position.  The engine only calls this when `k` is
present; on an absent key we leave the cache unchanged. -/
def moveToEnd (c : Cache σ) (k : Key) : Cache σ :=
  match findVal c k with
  | some v => eraseKey c k ++ [(k, v)]
  | none => c

/-- The `while len(self._cache) > CACHE_MAX_SIZE` eviction loop of
`_put_cache`: pop the front (least recently used) entry; if its key is the
empty sentinel, re-insert it at the front and stop (net effect: stop with the
cache unchanged); otherwise drop it and continue. -/
def evictLoop (maxSize : Nat) : Cache σ → Cache σ
  | [] => []
  | (k, v) :: rest =>
    if ((k, v) :: rest).length ≤ maxSize then (k, v) :: rest
    else if k = [] then (k, v) :: rest
    else evictLoop maxSize rest

/-- Embedding of `_put_cache(key, state)`: if the key is present, just refresh its recency
(`move_to_end`) and return; otherwise append the new entry at the
most-recently-used end and run the eviction loop. -/
def putCache (maxSize : Nat) (k : Key) (v : σ) (c : Cache σ) : Cache σ :=
  if (findVal c k).isSome then moveToEnd c k
  else evictLoop maxSize (c ++ [(k, v)])

/-- The scan of `_longest_cached_prefix`: for `i` from the given bound down to
0, check whether `ctx[:i]` is cached; on the first hit, mark it most recently
used and return `(ctx[:i], value, updated cache)`.  Returns `none` only when
even the empty key is absent (the `RuntimeError` branch). -/
def lcpScan (c : Cache σ) (ctx : Key) : Nat → Option (Key × σ × Cache σ)
  | 0 =>
    match findVal c [] with
    | some v => some ([], v, moveToEnd c [])
    | none => none
  | i + 1 =>
    let pfx := ctx.take (i + 1)
    match findVal c pfx with
    | some v => some (pfx, v, moveToEnd c pfx)
    | none => lcpScan c ctx i

/-- Embedding of `_longest_cached_prefix(ctx)`: scan candidate lengths from
`len(ctx)` down to 0. -/
def longestCachedPrefix (c : Cache σ) (ctx : Key) : Option (Key × σ × Cache σ) :=
  lcpScan c ctx ctx.length

/-- The advance loop of `_predict_one`: for each byte of the uncached suffix
in order, advance the state one byte (`state = await (state.prune() <<
byte_val)`) and insert it into the cache keyed by the prefix so far
(`new_prefix = ctx[: len(prefix) + i + 1]`, accumulated here as
`cur ++ [b]`). -/
def advanceLoop (adv : σ → Byte → σ) (maxSize : Nat) :
    Key → σ → List Byte → Cache σ → σ × Cache σ
  | _, s, [], c => (s, c)
  | cur, s, b :: rest, c =>
    let s' := adv s b
    let cur' := cur ++ [b]
    advanceLoop adv maxSize cur' s' rest (putCache maxSize cur' s' c)

/-- Embedding of `_predict_one(ctx)`: find the longest cached prefix of `ctx`
(marking it most recently used), advance byte by byte through the uncached
suffix while populating the cache, then query the next-byte distribution of
the final state.  Here `qd` stands for the composite
`with_mode(TrieMode.WITH_EOS)` / `logp_next()` / `np.exp(logp.ps[:256])`
query; the `RuntimeError` branch is `none`. -/
def predictOne (adv : σ → Byte → σ) (qd : σ → Dist) (maxSize : Nat)
    (c : Cache σ) (ctx : Key) : Option (Dist × Cache σ) :=
  match longestCachedPrefix c ctx with
  | none => none
  | some (pfx, s, c1) =>
    let r := advanceLoop adv maxSize pfx s (ctx.drop pfx.length) c1
    some (qd r.1, r.2)

/-- A prediction trie node: `{"dist": ..., "children": ...}` as built by
`_predict_trie`; children is a list of (byte, subtrie) pairs in the order the
eligible bytes are enumerated. -/
inductive Trie : Type where
  | node (dist : Dist) (children : List (Byte × Trie))

/-- The `dist` field of a trie node. -/
def Trie.dist : Trie → Dist
  | .node d _ => d

/-- The `children` field of a trie node. -/
def Trie.children : Trie → List (Byte × Trie)
  | .node _ ch => ch

/-- The eligible set of `_predict_trie`: bytes `b` in `range(256)` with
`dist[b] != 0 and prob_so_far * dist[b] >= min_prob`. -/
def eligibleOf (dist : Dist) (probSoFar minProb : ℚ) : List Byte :=
  (List.finRange 256).filter (fun b => dist b ≠ 0 ∧ minProb ≤ probSoFar * dist b)

/-- Embedding of `_predict_trie(prefix, prob_so_far, min_prob, depth)` with the
distribution source abstracted as a pure function `oracle` of the prefix
(justified for a coherent cache by `predictOne_dist_of_coherent` below: there
`_predict_one` returns a value depending only on its context argument).
Returns a leaf when `depth >= 5 or len(eligible) >= 3`; otherwise one child
per eligible byte, expanded with accumulated probability
`prob_so_far * dist[b]` at `depth + 1`. -/
def predictTrie (oracle : Key → Dist) (pfx : Key) (probSoFar minProb : ℚ)
    (depth : Nat) : Trie :=
  if h : 5 ≤ depth ∨ 3 ≤ (eligibleOf (oracle pfx) probSoFar minProb).length then
    .node (oracle pfx) []
  else
    .node (oracle pfx)
      ((eligibleOf (oracle pfx) probSoFar minProb).attach.map (fun b =>
        (b.1, predictTrie oracle (pfx ++ [b.1]) (probSoFar * oracle pfx b.1)
          minProb (depth + 1))))
termination_by 5 - depth
decreasing_by
  simp only [not_or, not_le] at h
  omega

/-- Embedding of `predict_batch(inputs)`: empty input yields `[]` immediately (before any
engine call); otherwise one `_predict_trie(ctx, 1.0, min_prob)` result per
input, in input order (`asyncio.gather` preserves argument order). -/
def predictBatch (oracle : Key → Dist) (inputs : List (Key × ℚ)) : List Trie :=
  if inputs.isEmpty then []
  else inputs.map (fun p => predictTrie oracle p.1 1 p.2 0)

/-- A single externally visible cache operation: an insertion (`_put_cache`)
or a longest-prefix lookup (`_longest_cached_prefix`, which refreshes the
recency of the found key). -/
inductive CacheOp (σ : Type) where
  | put (k : Key) (v : σ)
  | lookup (ctx : Key)

/-- Apply one cache operation. -/
def applyOp (maxSize : Nat) : CacheOp σ → Cache σ → Cache σ
  | .put k v, c => putCache maxSize k v c
  | .lookup ctx, c =>
    match longestCachedPrefix c ctx with
    | some (_, _, c') => c'
    | none => c

/-- Apply a sequence of cache operations, oldest first. -/
def applyOps (maxSize : Nat) : List (CacheOp σ) → Cache σ → Cache σ
  | [], c => c
  | op :: ops, c => applyOps maxSize ops (applyOp maxSize op c)

/-! ## Basic lemmas about the cache primitives -/

theorem findVal_isSome_iff (c : Cache σ) (k : Key) :
    (findVal c k).isSome ↔ k ∈ c.map Prod.fst := by
  induction c with
  | nil => simp [findVal]
  | cons kv rest ih =>
    obtain ⟨k', v⟩ := kv
    by_cases h : k' = k
    · subst h
      simp [findVal]
    · have h' : ¬k = k' := fun hh => h hh.symm
      simp [findVal, h, h', ih]

theorem findVal_mem {c : Cache σ} {k : Key} {v : σ}
    (h : findVal c k = some v) : (k, v) ∈ c := by
  induction c with
  | nil => simp [findVal] at h
  | cons kv rest ih =>
    obtain ⟨k', w⟩ := kv
    by_cases hk : k' = k
    · subst hk
      simp [findVal] at h
      simp [h]
    · simp [findVal, hk] at h
      exact List.mem_cons_of_mem _ (ih h)

theorem mem_of_mem_eraseKey {c : Cache σ} {k : Key} {kv : Key × σ}
    (h : kv ∈ eraseKey c k) : kv ∈ c :=
  List.mem_of_mem_filter h

theorem mem_keys_eraseKey {c : Cache σ} {k k' : Key} :
    k' ∈ (eraseKey c k).map Prod.fst ↔ k' ∈ c.map Prod.fst ∧ k' ≠ k := by
  simp only [eraseKey, List.mem_map]
  constructor
  · rintro ⟨kv, hmem, rfl⟩
    have hp := List.of_mem_filter hmem
    simp only [decide_eq_true_eq] at hp
    exact ⟨⟨kv, List.mem_of_mem_filter hmem, rfl⟩, hp⟩
  · rintro ⟨⟨kv, hmem, rfl⟩, hne⟩
    exact ⟨kv, List.mem_filter.mpr ⟨hmem, by simpa using hne⟩, rfl⟩

theorem findVal_eraseKey_self (c : Cache σ) (k : Key) :
    findVal (eraseKey c k) k = none := by
  induction c with
  | nil => simp [eraseKey, findVal]
  | cons kv rest ih =>
    by_cases h : kv.1 = k
    · simpa [eraseKey, List.filter_cons, h] using ih
    · simpa [eraseKey, List.filter_cons, h, findVal] using ih

theorem findVal_append_left_none {c d : Cache σ} {k : Key}
    (h : findVal c k = none) : findVal (c ++ d) k = findVal d k := by
  induction c with
  | nil => simp
  | cons kv rest ih =>
    obtain ⟨k', v⟩ := kv
    by_cases hk : k' = k
    · simp [findVal, hk] at h
    · simp only [List.cons_append, findVal, if_neg hk] at h ⊢
      exact ih h

theorem mem_keys_moveToEnd (c : Cache σ) (k k' : Key) :
    k' ∈ (moveToEnd c k).map Prod.fst ↔ k' ∈ c.map Prod.fst := by
  unfold moveToEnd
  cases hv : findVal c k with
  | none => rfl
  | some v =>
    constructor
    · intro h
      simp only [List.map_append, List.mem_append] at h
      rcases h with h | h
      · exact (mem_keys_eraseKey.mp h).1
      · simp at h
        subst h
        rw [← findVal_isSome_iff, hv]
        rfl
    · intro h
      by_cases hk : k' = k
      · subst hk
        simp
      · simp only [List.map_append, List.mem_append]
        exact Or.inl (mem_keys_eraseKey.mpr ⟨h, hk⟩)

theorem mem_of_mem_evictLoop {maxSize : Nat} {c : Cache σ} {kv : Key × σ}
    (h : kv ∈ evictLoop maxSize c) : kv ∈ c := by
  induction c with
  | nil => exact h
  | cons hd rest ih =>
    obtain ⟨k, v⟩ := hd
    by_cases h1 : ((k, v) :: rest).length ≤ maxSize
    · rwa [evictLoop, if_pos h1] at h
    · by_cases h2 : k = []
      · rwa [evictLoop, if_neg h1, if_pos h2] at h
      · rw [evictLoop, if_neg h1, if_neg h2] at h
        exact List.mem_cons_of_mem _ (ih h)

theorem nil_mem_keys_evictLoop {maxSize : Nat} {c : Cache σ}
    (h : [] ∈ c.map Prod.fst) : [] ∈ (evictLoop maxSize c).map Prod.fst := by
  induction c with
  | nil => exact h
  | cons hd rest ih =>
    obtain ⟨k, v⟩ := hd
    by_cases h1 : ((k, v) :: rest).length ≤ maxSize
    · rwa [evictLoop, if_pos h1]
    · by_cases h2 : k = []
      · rwa [evictLoop, if_neg h1, if_pos h2]
      · rw [evictLoop, if_neg h1, if_neg h2]
        apply ih
        simp only [List.map_cons, List.mem_cons] at h
        rcases h with h | h
        · exact absurd h.symm h2
        · exact h

theorem evictLoop_length_le (maxSize : Nat) (c : Cache σ) :
    (evictLoop maxSize c).length ≤ c.length := by
  induction c with
  | nil => simp [evictLoop]
  | cons hd rest ih =>
    obtain ⟨k, v⟩ := hd
    by_cases h1 : ((k, v) :: rest).length ≤ maxSize
    · rw [evictLoop, if_pos h1]
    · by_cases h2 : k = []
      · rw [evictLoop, if_neg h1, if_pos h2]
      · rw [evictLoop, if_neg h1, if_neg h2]
        exact le_trans ih (by simp)

theorem evictLoop_head_of_oversized {maxSize : Nat} {c : Cache σ}
    (h : maxSize < (evictLoop maxSize c).length) :
    (evictLoop maxSize c).head?.map Prod.fst = some [] := by
  induction c with
  | nil => simp [evictLoop] at h
  | cons hd rest ih =>
    obtain ⟨k, v⟩ := hd
    by_cases h1 : ((k, v) :: rest).length ≤ maxSize
    · rw [evictLoop, if_pos h1] at h
      omega
    · by_cases h2 : k = []
      · rw [evictLoop, if_neg h1, if_pos h2]
        simp [h2]
      · rw [evictLoop, if_neg h1, if_neg h2] at h ⊢
        exact ih h

theorem eraseKey_length_lt {c : Cache σ} {k : Key} {v : σ}
    (h : findVal c k = some v) : (eraseKey c k).length < c.length := by
  induction c with
  | nil => simp [findVal] at h
  | cons hd rest ih =>
    obtain ⟨k', w⟩ := hd
    by_cases hk : k' = k
    · have : (eraseKey rest k).length ≤ rest.length := List.length_filter_le _ _
      simp only [eraseKey, List.filter_cons, hk]
      simp only [decide_not, decide_eq_true_eq]
      simpa [eraseKey] using Nat.lt_succ_of_le this
    · simp only [findVal, if_neg hk] at h
      simp only [eraseKey, List.filter_cons]
      have hne : (decide ¬(k', w).1 = k) = true := by simpa using hk
      simp only [List.filter_cons] at *
      simp only [hne, if_pos]
      simpa [eraseKey] using Nat.succ_lt_succ (ih h)

theorem moveToEnd_length_le (c : Cache σ) (k : Key) :
    (moveToEnd c k).length ≤ c.length := by
  unfold moveToEnd
  cases hv : findVal c k with
  | none => exact le_refl _
  | some v =>
    have := eraseKey_length_lt hv
    simp only [List.length_append, List.length_singleton]
    omega

/-- If every key of `c` distinct: not needed for this lemma; `moveToEnd`
keeps the front entry in place whenever it is not the moved key. -/
theorem nil_mem_keys_moveToEnd {c : Cache σ} {k : Key}
    (h : [] ∈ c.map Prod.fst) : [] ∈ (moveToEnd c k).map Prod.fst :=
  (mem_keys_moveToEnd c k []).mpr h

theorem nil_mem_keys_putCache {maxSize : Nat} {k : Key} {v : σ} {c : Cache σ}
    (h : [] ∈ c.map Prod.fst) : [] ∈ (putCache maxSize k v c).map Prod.fst := by
  unfold putCache
  by_cases hp : (findVal c k).isSome
  · rw [if_pos hp]
    exact nil_mem_keys_moveToEnd h
  · rw [if_neg hp]
    apply nil_mem_keys_evictLoop
    simp only [List.map_append, List.mem_append]
    exact Or.inl h

theorem eraseKey_of_not_mem {c : Cache σ} {k : Key}
    (h : k ∉ c.map Prod.fst) : eraseKey c k = c := by
  apply List.filter_eq_self.mpr
  intro kv hkv
  simp only [decide_eq_true_eq]
  intro hk
  exact h (List.mem_map.mpr ⟨kv, hkv, hk⟩)

theorem moveToEnd_eq {c : Cache σ} {k : Key} {v : σ}
    (hv : findVal c k = some v) : moveToEnd c k = eraseKey c k ++ [(k, v)] := by
  unfold moveToEnd
  rw [hv]

theorem moveToEnd_of_none {c : Cache σ} {k : Key}
    (h : findVal c k = none) : moveToEnd c k = c := by
  unfold moveToEnd
  rw [h]

theorem moveToEnd_perm {c : Cache σ} {k : Key} {v : σ}
    (hv : findVal c k = some v) (hnd : (c.map Prod.fst).Nodup) :
    (moveToEnd c k).Perm c := by
  rw [moveToEnd_eq hv]
  induction c with
  | nil => simp [findVal] at hv
  | cons hd rest ih =>
    obtain ⟨k', w⟩ := hd
    by_cases hk : k' = k
    · subst hk
      have hw : w = v := by simpa [findVal] using hv
      subst hw
      simp only [List.map_cons, List.nodup_cons] at hnd
      have hrest : eraseKey rest k' = rest := eraseKey_of_not_mem hnd.1
      have hek : eraseKey ((k', w) :: rest) k' = rest := by
        simp only [eraseKey, List.filter_cons] at hrest ⊢
        simpa using hrest
      rw [hek]
      exact List.perm_append_singleton _ _
    · have hv' : findVal rest k = some v := by
        simpa [findVal, hk] using hv
      simp only [List.map_cons, List.nodup_cons] at hnd
      have hperm := ih hv' hnd.2
      have hek : eraseKey ((k', w) :: rest) k = (k', w) :: eraseKey rest k := by
        simp only [eraseKey, List.filter_cons]
        simp [hk]
      rw [hek]
      exact (hperm.cons (k', w))

theorem findVal_moveToEnd_self (c : Cache σ) (k : Key) :
    findVal (moveToEnd c k) k = findVal c k := by
  cases hv : findVal c k with
  | none => rw [moveToEnd_of_none hv, hv]
  | some v =>
    rw [moveToEnd_eq hv, findVal_append_left_none (findVal_eraseKey_self c k)]
    simp [findVal]

/-- Shape of a successful longest-prefix scan: the returned cache is the
input cache with the found key refreshed. -/
theorem lcpScan_some_shape {c : Cache σ} {ctx : Key} {i : Nat}
    {p : Key} {v : σ} {c' : Cache σ}
    (h : lcpScan c ctx i = some (p, v, c')) : c' = moveToEnd c p := by
  induction i with
  | zero =>
    simp only [lcpScan] at h
    cases hv : findVal c [] with
    | none => rw [hv] at h; cases h
    | some w =>
      rw [hv] at h
      cases h
      rfl
  | succ n ih =>
    simp only [lcpScan] at h
    cases hv : findVal c (ctx.take (n + 1)) with
    | none =>
      rw [hv] at h
      exact ih h
    | some w =>
      rw [hv] at h
      cases h
      rfl

/-- Full specification of the descending scan of `_longest_cached_prefix`:
with the sentinel present it succeeds, returning a cached take of `ctx` whose
longer takes are all uncached, with the found key refreshed. -/
theorem lcpScan_spec (c : Cache σ) (ctx : Key) (i : Nat)
    (hnil : [] ∈ c.map Prod.fst) :
    ∃ j v, j ≤ i ∧
      lcpScan c ctx i = some (ctx.take j, v, moveToEnd c (ctx.take j)) ∧
      findVal c (ctx.take j) = some v ∧
      ∀ j', j < j' → j' ≤ i → findVal c (ctx.take j') = none := by
  induction i with
  | zero =>
    have hs : (findVal c []).isSome := (findVal_isSome_iff c []).mpr hnil
    cases hv : findVal c [] with
    | none => rw [hv] at hs; cases hs
    | some v =>
      refine ⟨0, v, le_refl 0, ?_, ?_, ?_⟩
      · simp only [lcpScan, hv, List.take_zero]
      · simpa using hv
      · intro j' h1 h2
        omega
  | succ n ih =>
    cases hv : findVal c (ctx.take (n + 1)) with
    | some v =>
      refine ⟨n + 1, v, le_refl _, ?_, hv, ?_⟩
      · simp only [lcpScan, hv]
      · intro j' h1 h2
        omega
    | none =>
      obtain ⟨j, v, hj, heq, hfind, hnone⟩ := ih
      refine ⟨j, v, le_trans hj (Nat.le_succ n), ?_, hfind, ?_⟩
      · simp only [lcpScan, hv]
        exact heq
      · intro j' h1 h2
        rcases Nat.lt_or_ge j' (n + 1) with h | h
        · exact hnone j' h1 (by omega)
        · have hj' : j' = n + 1 := by omega
          subst hj'
          exact hv

/-! ## Claim theorems for the cache -/

/-- C4 (confirmed): starting from the cache as `start()` leaves it (only the
empty key present), for every sequence of insertions and longest-prefix
lookups and every configured maximum, the empty byte sequence remains a key
of the cache; it is never removed. -/
theorem claim_C4 (maxSize : Nat) (ops : List (CacheOp σ)) (s0 : σ) :
    [] ∈ (applyOps maxSize ops [([], s0)]).map Prod.fst := by
  have main : ∀ (ops : List (CacheOp σ)) (c : Cache σ), [] ∈ c.map Prod.fst →
      [] ∈ (applyOps maxSize ops c).map Prod.fst := by
    intro ops
    induction ops with
    | nil => exact fun c h => h
    | cons op rest ih =>
      intro c h
      apply ih
      cases op with
      | put k v => exact nil_mem_keys_putCache h
      | lookup ctx =>
        simp only [applyOp]
        cases hl : longestCachedPrefix c ctx with
        | none => exact h
        | some r =>
          obtain ⟨p, v, c'⟩ := r
          rw [lcpScan_some_shape hl]
          exact nil_mem_keys_moveToEnd h
  exact main ops [([], s0)] (by simp)

/-- C2 (amended): a `put` call grows the cache by at most one entry, and a
put of an absent key that leaves the cache above the configured maximum can
do so only because eviction was blocked by the sentinel: the least recently
used entry is then the empty key.  A put of a present key never grows the
cache.  The original bound "size ≤ maximum after every put, for every
maximum ≥ 1" fails (see the counterexample): when the sentinel occupies the
least-recently-used position, the eviction loop stops without evicting. -/
theorem claim_C2 (maxSize : Nat) (k : Key) (v : σ) (c : Cache σ) :
    (putCache maxSize k v c).length ≤ c.length + 1 ∧
    (findVal c k = none → maxSize < (putCache maxSize k v c).length →
      (putCache maxSize k v c).head?.map Prod.fst = some []) ∧
    ((findVal c k).isSome → (putCache maxSize k v c).length ≤ c.length) := by
  refine ⟨?_, ?_, ?_⟩
  · unfold putCache
    by_cases hp : (findVal c k).isSome
    · rw [if_pos hp]
      exact le_trans (moveToEnd_length_le c k) (Nat.le_succ _)
    · rw [if_neg hp]
      calc (evictLoop maxSize (c ++ [(k, v)])).length
          ≤ (c ++ [(k, v)]).length := evictLoop_length_le _ _
        _ = c.length + 1 := by simp
  · intro hnone hover
    have hp : ¬(findVal c k).isSome = true := by simp [hnone]
    unfold putCache at hover ⊢
    rw [if_neg hp] at hover ⊢
    exact evictLoop_head_of_oversized hover
  · intro hp
    unfold putCache
    rw [if_pos hp]
    exact moveToEnd_length_le c k

/-- Witness for C2 at a concrete input: maximum 1, cache `{b"": s}` as built
by `start()`, inserting `b"a"` leaves 2 > 1 entries with the sentinel at the
least-recently-used position. -/
theorem claim_C2_witness :
    (1 : Nat) < (putCache 1 [(97 : Fin 256)] (1 : Nat) [([], 0)]).length ∧
    (putCache 1 [(97 : Fin 256)] (1 : Nat) [([], 0)]).head?.map Prod.fst = some [] :=
  ⟨by decide, (claim_C2 1 [(97 : Fin 256)] 1 [([], 0)]).2.1 (by decide) (by decide)⟩

/-- C2 counterexample: with configured maximum 1 (so maximum ≥ 1) and the
cache exactly as `start()` leaves it, a single insertion of `b"a"` leaves the
cache with 2 entries, exceeding the maximum: the eviction loop pops the
sentinel, re-inserts it and stops. -/
theorem claim_C2_counterexample :
    1 ≤ 1 ∧ ¬((putCache 1 [(97 : Fin 256)] (1 : Nat) [([], 0)]).length ≤ 1) := by
  decide

/-- C3 (amended): with maximum 2, inserting `b""`, `b"a"`, `b"ab"` in order
into the cache `start()` builds leaves the cache holding all three keys
`b""`, `b"a"`, `b"ab"` (in that recency order, values untouched): the third
insertion pops the sentinel, re-inserts it and stops evicting, so the LRU
victim `b"a"` is never examined, let alone evicted. -/
theorem claim_C3 :
    putCache 2 [97, 98] (2 : Nat)
        (putCache 2 [97] 1 (putCache 2 [] 0 [([], 0)]))
      = [([], 0), ([97], 1), ([97, 98], 2)] := by
  decide

/-- C3 counterexample: after the scenario of the claim, `b"a"` is still a key
of the cache, so the cache does not contain exactly `{b"", b"ab"}`. -/
theorem claim_C3_counterexample :
    [(97 : Fin 256)] ∈ (putCache 2 [97, 98] (2 : Nat)
        (putCache 2 [97] 1 (putCache 2 [] 0 [([], 0)]))).map Prod.fst ∧
    (putCache 2 [97, 98] (2 : Nat)
        (putCache 2 [97] 1 (putCache 2 [] 0 [([], 0)]))).length ≠ 2 := by
  decide

/-- C6 (confirmed): a `put` on a key already present leaves the stored value
unchanged (the new value is discarded), merely moves the entry to the
most-recently-used position, and performs no eviction: the resulting cache is
a permutation of the old one. -/
theorem claim_C6 (maxSize : Nat) (k : Key) (v w : σ) (c : Cache σ)
    (hv : findVal c k = some v) (hnd : (c.map Prod.fst).Nodup) :
    putCache maxSize k w c = eraseKey c k ++ [(k, v)] ∧
    findVal (putCache maxSize k w c) k = some v ∧
    (putCache maxSize k w c).Perm c := by
  have hput : putCache maxSize k w c = moveToEnd c k := by
    unfold putCache
    rw [if_pos (by simp [hv])]
  refine ⟨?_, ?_, ?_⟩
  · rw [hput, moveToEnd_eq hv]
  · rw [hput, findVal_moveToEnd_self, hv]
  · rw [hput]
    exact moveToEnd_perm hv hnd

/-- Witness for C6 at a concrete input: re-inserting key `b"a"` with a new
value 9 keeps the stored value 1. -/
theorem claim_C6_witness :
    findVal (putCache 5 [(97 : Fin 256)] (9 : Nat)
        [([], 0), ([97], 1), ([98], 2)]) [97] = some 1 :=
  (claim_C6 5 [97] 1 9 [([], 0), ([97], 1), ([98], 2)]
    (by decide) (by decide)).2.1

/-- C5 (confirmed): when the empty key is present, `_longest_cached_prefix`
never fails (the `RuntimeError` branch is unreachable) and returns the unique
longest cached key that is an initial segment of `ctx`, together with its
stored value, marking that key most recently used; when only the empty key
is a cached prefix, maximality forces the empty key to be returned. -/
theorem claim_C5 (c : Cache σ) (ctx : Key)
    (hnil : [] ∈ c.map Prod.fst) :
    ∃ p v, longestCachedPrefix c ctx = some (p, v, moveToEnd c p) ∧
      findVal c p = some v ∧
      (∃ t, p ++ t = ctx) ∧
      (∀ k, k ∈ c.map Prod.fst → (∃ t, k ++ t = ctx) → k.length ≤ p.length) ∧
      (∀ k, k ∈ c.map Prod.fst → (∃ t, k ++ t = ctx) →
        k.length = p.length → k = p) := by
  obtain ⟨j, v, hj, heq, hfind, hnone⟩ := lcpScan_spec c ctx ctx.length hnil
  have hjlen : (ctx.take j).length = j := by
    rw [List.length_take]
    omega
  refine ⟨ctx.take j, v, heq, hfind,
    ⟨ctx.drop j, List.take_append_drop j ctx⟩, ?_, ?_⟩
  · rintro k hk ⟨t, ht⟩
    by_contra hlen
    push_neg at hlen
    have hklen : k.length ≤ ctx.length := by
      rw [← ht]
      simp
    have hktake : k = ctx.take k.length := by
      rw [← ht]
      exact (List.take_left k t).symm
    have hnk : findVal c (ctx.take k.length) = none :=
      hnone k.length (by omega) hklen
    rw [← hktake] at hnk
    have hsk : (findVal c k).isSome := (findVal_isSome_iff c k).mpr hk
    rw [hnk] at hsk
    cases hsk
  · rintro k hk ⟨t, ht⟩ hlen
    have hktake : k = ctx.take k.length := by
      rw [← ht]
      exact (List.take_left k t).symm
    calc k = ctx.take k.length := hktake
      _ = ctx.take j := by rw [hlen, hjlen]

/-- Witness for C5 at a concrete input: cache with keys `b""` and `b"a"`,
query `b"ab"`; the longest cached prefix is `b"a"`. -/
theorem claim_C5_witness :
    ∃ p v, longestCachedPrefix [(([] : Key), (0 : Nat)), ([97], 1)] [97, 98]
        = some (p, v, moveToEnd [(([] : Key), (0 : Nat)), ([97], 1)] p) ∧
      findVal [(([] : Key), (0 : Nat)), ([97], 1)] p = some v ∧
      (∃ t, p ++ t = [97, 98]) ∧
      (∀ k, k ∈ ([(([] : Key), (0 : Nat)), ([97], 1)]).map Prod.fst →
        (∃ t, k ++ t = [97, 98]) → k.length ≤ p.length) ∧
      (∀ k, k ∈ ([(([] : Key), (0 : Nat)), ([97], 1)]).map Prod.fst →
        (∃ t, k ++ t = [97, 98]) → k.length = p.length → k = p) :=
  claim_C5 [(([] : Key), (0 : Nat)), ([97], 1)] [97, 98] (by decide)

/-! ## The state advancer -/

/-- Cache coherence: every cached entry holds the state obtained by
advancing the initial state through its key, byte by byte.  This is what
`start()` establishes (the empty key maps to the initial state) and what
every cache population step of `_predict_one` maintains. -/
def Coherent (adv : σ → Byte → σ) (s0 : σ) (c : Cache σ) : Prop :=
  ∀ kv ∈ c, kv.2 = kv.1.foldl adv s0

theorem advanceLoop_fst (adv : σ → Byte → σ) (maxSize : Nat) :
    ∀ (sfx : List Byte) (cur : Key) (s : σ) (c : Cache σ),
      (advanceLoop adv maxSize cur s sfx c).1 = sfx.foldl adv s := by
  intro sfx
  induction sfx with
  | nil => intro cur s c; rfl
  | cons b rest ih =>
    intro cur s c
    simpa [advanceLoop] using ih (cur ++ [b]) (adv s b) _

theorem mem_of_mem_moveToEnd {c : Cache σ} {k : Key} {kv : Key × σ}
    (h : kv ∈ moveToEnd c k) : kv ∈ c := by
  unfold moveToEnd at h
  cases hv : findVal c k with
  | none =>
    rw [hv] at h
    exact h
  | some v =>
    rw [hv] at h
    rcases List.mem_append.mp h with h' | h'
    · exact mem_of_mem_eraseKey h'
    · simp only [List.mem_singleton] at h'
      subst h'
      exact findVal_mem hv

theorem putCache_coherent {adv : σ → Byte → σ} {s0 : σ} {maxSize : Nat}
    {k : Key} {v : σ} {c : Cache σ}
    (hcoh : Coherent adv s0 c) (hv : v = k.foldl adv s0) :
    Coherent adv s0 (putCache maxSize k v c) := by
  intro kv hkv
  unfold putCache at hkv
  by_cases hp : (findVal c k).isSome
  · rw [if_pos hp] at hkv
    exact hcoh kv (mem_of_mem_moveToEnd hkv)
  · rw [if_neg hp] at hkv
    rcases List.mem_append.mp (mem_of_mem_evictLoop hkv) with h' | h'
    · exact hcoh kv h'
    · simp only [List.mem_singleton] at h'
      subst h'
      exact hv

theorem advanceLoop_coherent (adv : σ → Byte → σ) (s0 : σ) (maxSize : Nat) :
    ∀ (sfx : List Byte) (cur : Key) (s : σ) (c : Cache σ),
      Coherent adv s0 c → s = cur.foldl adv s0 →
      Coherent adv s0 (advanceLoop adv maxSize cur s sfx c).2 := by
  intro sfx
  induction sfx with
  | nil => exact fun cur s c hc _ => hc
  | cons b rest ih =>
    intro cur s c hc hs
    have hs' : adv s b = (cur ++ [b]).foldl adv s0 := by
      rw [List.foldl_append, ← hs]
      rfl
    exact ih (cur ++ [b]) (adv s b) _ (putCache_coherent hc hs') hs'

theorem advanceLoop_nil_mem (adv : σ → Byte → σ) (maxSize : Nat) :
    ∀ (sfx : List Byte) (cur : Key) (s : σ) (c : Cache σ),
      [] ∈ c.map Prod.fst →
      [] ∈ ((advanceLoop adv maxSize cur s sfx c).2).map Prod.fst := by
  intro sfx
  induction sfx with
  | nil => exact fun cur s c h => h
  | cons b rest ih =>
    intro cur s c h
    exact ih (cur ++ [b]) (adv s b) _ (nil_mem_keys_putCache h)

/-- Under cache coherence, `_predict_one(ctx)` computes the distribution of
the state reached by advancing the initial state through the whole of `ctx`,
whatever the cache contents: the returned value depends only on `ctx`. -/
theorem predictOne_dist_of_coherent (adv : σ → Byte → σ) (qd : σ → Dist)
    (maxSize : Nat) (s0 : σ) (c : Cache σ) (ctx : Key)
    (hcoh : Coherent adv s0 c) (hnil : [] ∈ c.map Prod.fst) :
    (predictOne adv qd maxSize c ctx).map Prod.fst
      = some (qd (ctx.foldl adv s0)) := by
  obtain ⟨j, v, hj, heq, hfind, _⟩ := lcpScan_spec c ctx ctx.length hnil
  have hv : v = (ctx.take j).foldl adv s0 := hcoh _ (findVal_mem hfind)
  have hjlen : (ctx.take j).length = j := by
    rw [List.length_take]
    omega
  have hred : predictOne adv qd maxSize c ctx
      = some (qd (advanceLoop adv maxSize (ctx.take j) v
          (ctx.drop (ctx.take j).length) (moveToEnd c (ctx.take j))).1,
        (advanceLoop adv maxSize (ctx.take j) v
          (ctx.drop (ctx.take j).length) (moveToEnd c (ctx.take j))).2) := by
    unfold predictOne longestCachedPrefix
    rw [heq]
  rw [hred]
  simp only [Option.map_some']
  rw [advanceLoop_fst, hjlen, hv, ← List.foldl_append, List.take_append_drop]

/-- C1 (confirmed): the distribution `_predict_one(ctx)` returns over a
coherent cache — ancestors of `ctx` pre-populated in any way the engine can
produce — is identical to the one computed from scratch over the minimal
cache holding only the empty-sequence entry, namely the distribution of the
state obtained by advancing the initial state through all of `ctx`. -/
theorem claim_C1 (adv : σ → Byte → σ) (qd : σ → Dist) (maxSize : Nat)
    (s0 : σ) (c : Cache σ) (ctx : Key)
    (hcoh : Coherent adv s0 c) (hnil : [] ∈ c.map Prod.fst) :
    (predictOne adv qd maxSize c ctx).map Prod.fst
      = (predictOne adv qd maxSize [([], s0)] ctx).map Prod.fst ∧
    (predictOne adv qd maxSize c ctx).map Prod.fst
      = some (qd (ctx.foldl adv s0)) := by
  have h1 := predictOne_dist_of_coherent adv qd maxSize s0 c ctx hcoh hnil
  have h2 := predictOne_dist_of_coherent adv qd maxSize s0 [([], s0)] ctx
    (by
      intro kv hkv
      simp only [List.mem_singleton] at hkv
      subst hkv
      rfl)
    (by simp)
  exact ⟨h1.trans h2.symm, h1⟩

/-- Witness for C1 at a concrete input: states are the byte strings
themselves, advancing appends; over the pre-populated coherent cache with
keys `b""` and `b"a"`, predicting `b"ab"` matches the from-scratch run. -/
theorem claim_C1_witness :
    (predictOne (fun (s : Key) b => s ++ [b]) (fun s _ => (s.length : ℚ)) 10
        [([], []), ([97], [97])] [97, 98]).map Prod.fst
      = (predictOne (fun (s : Key) b => s ++ [b]) (fun s _ => (s.length : ℚ)) 10
        [([], [])] [97, 98]).map Prod.fst :=
  (claim_C1 (fun (s : Key) b => s ++ [b]) (fun s _ => (s.length : ℚ)) 10
    [] [([], []), ([97], [97])] [97, 98]
    (by
      intro kv hkv
      simp only [List.mem_cons, List.mem_singleton] at hkv
      rcases hkv with rfl | rfl | h
      · rfl
      · rfl
      · cases h)
    (by decide)).1

theorem longestCachedPrefix_of_mem {c : Cache σ} {ctx : Key} {v : σ}
    (hv : findVal c ctx = some v) :
    longestCachedPrefix c ctx = some (ctx, v, moveToEnd c ctx) := by
  unfold longestCachedPrefix
  cases hl : ctx.length with
  | zero =>
    have hc : ctx = [] := List.length_eq_zero.mp hl
    subst hc
    simp [lcpScan, hv]
  | succ n =>
    have ht : ctx.take (n + 1) = ctx := by
      rw [← hl]
      exact List.take_length ctx
    simp only [lcpScan, ht, hv]

/-- C10 (confirmed): on a context that is already a cache key,
`_predict_one` inserts nothing and evicts nothing: it returns the stored
value queried, and the cache afterwards is the old cache with that key moved
to the most-recently-used position — a permutation of the old cache, with
every key and every stored value unchanged. -/
theorem claim_C10 (adv : σ → Byte → σ) (qd : σ → Dist) (maxSize : Nat)
    (c : Cache σ) (ctx : Key) (v : σ)
    (hv : findVal c ctx = some v) (hnd : (c.map Prod.fst).Nodup) :
    predictOne adv qd maxSize c ctx = some (qd v, moveToEnd c ctx) ∧
    (moveToEnd c ctx).Perm c := by
  constructor
  · unfold predictOne
    rw [longestCachedPrefix_of_mem hv]
    simp [advanceLoop, List.drop_length]
  · exact moveToEnd_perm hv hnd

/-- Witness for C10 at a concrete input: querying the cached key `b"a"`
refreshes its recency and changes nothing else. -/
theorem claim_C10_witness :
    predictOne (fun (s : Key) b => s ++ [b]) (fun s _ => (s.length : ℚ)) 10
        [([], []), ([97], [97]), ([98], [98])] [97]
      = some ((fun (s : Key) (_ : Byte) => (s.length : ℚ)) [97],
          moveToEnd [([], []), ([97], [97]), ([98], [98])] [97]) :=
  (claim_C10 (fun (s : Key) b => s ++ [b]) (fun s _ => (s.length : ℚ)) 10
    [([], []), ([97], [97]), ([98], [98])] [97] [97]
    (by decide) (by decide)).1

/-! ## The trie expander -/

/-- Structural well-formedness of an expansion result, indexed by the depth
parameter of the call producing it: the depth never exceeds 5; a node whose
depth is 5, or whose eligible set has 3 or more members, has no children;
otherwise the children are exactly the eligible bytes in order; every child
is itself well-formed one level deeper with accumulated probability
multiplied by its byte mass.  A distribution is present at every node by
construction of `Trie`. -/
inductive DepthOK (minProb : ℚ) : ℚ → Nat → Trie → Prop where
  | node (dist : Dist) (ch : List (Byte × Trie)) (probSoFar : ℚ) (depth : Nat)
      (hdepth : depth ≤ 5)
      (hleaf : 5 ≤ depth ∨ 3 ≤ (eligibleOf dist probSoFar minProb).length →
        ch = [])
      (hkeys : ¬(5 ≤ depth ∨ 3 ≤ (eligibleOf dist probSoFar minProb).length) →
        ch.map Prod.fst = eligibleOf dist probSoFar minProb)
      (hrec : ∀ p ∈ ch, DepthOK minProb (probSoFar * dist p.1) (depth + 1) p.2) :
      DepthOK minProb probSoFar depth (.node dist ch)

theorem predictTrie_depthOK_aux (oracle : Key → Dist) (minProb : ℚ) :
    ∀ (fuel : Nat) (pfx : Key) (probSoFar : ℚ) (depth : Nat),
      depth ≤ 5 → 5 - depth ≤ fuel →
      DepthOK minProb probSoFar depth
        (predictTrie oracle pfx probSoFar minProb depth) := by
  intro fuel
  induction fuel with
  | zero =>
    intro pfx prob depth hd hf
    have h5 : 5 ≤ depth := by omega
    rw [predictTrie]
    rw [dif_pos (Or.inl h5)]
    exact DepthOK.node (oracle pfx) [] prob depth hd (fun _ => rfl)
      (fun hc => absurd (Or.inl h5) hc) (fun p hp => absurd hp (List.not_mem_nil p))
  | succ n ih =>
    intro pfx prob depth hd hf
    by_cases h : 5 ≤ depth ∨ 3 ≤ (eligibleOf (oracle pfx) prob minProb).length
    · rw [predictTrie]
      rw [dif_pos h]
      exact DepthOK.node (oracle pfx) [] prob depth hd (fun _ => rfl)
        (fun hc => absurd h hc) (fun p hp => absurd hp (List.not_mem_nil p))
    · rw [predictTrie]
      rw [dif_neg h]
      refine DepthOK.node _ _ prob depth hd (fun hc => absurd hc h)
        (fun _ => ?_) ?_
      · rw [List.map_map]
        simp [List.attach_map_val]
      · intro p hp
        rw [List.mem_map] at hp
        obtain ⟨b, hb, rfl⟩ := hp
        have hd5 : depth < 5 := by
          rcases Nat.lt_or_ge depth 5 with h' | h'
          · exact h'
          · exact absurd (Or.inl h') h
        exact ih (pfx ++ [b.1]) (prob * oracle pfx b.1) (depth + 1)
          (by omega) (by omega)

/-- C7 (confirmed): an `_predict_trie` call starting at depth 0 yields a trie
in which every node lies at depth at most 5, every node at depth 5 (or with
3 or more eligible bytes) has no children, children are populated exactly
when the depth is below 5 and the eligible set has fewer than 3 members —
one child per eligible byte, the eligible bytes being pairwise distinct —
and every node, pruned or not, carries a 256-entry distribution (the `dist`
field of `Trie`, total on `Fin 256`). -/
theorem claim_C7 (oracle : Key → Dist) (pfx : Key) (probSoFar minProb : ℚ) :
    DepthOK minProb probSoFar 0 (predictTrie oracle pfx probSoFar minProb 0) ∧
    ∀ (dist : Dist) (p m : ℚ), (eligibleOf dist p m).Nodup :=
  ⟨predictTrie_depthOK_aux oracle minProb 5 pfx probSoFar 0 (by omega) (by omega),
   fun _ _ _ => (List.nodup_finRange 256).filter _⟩

/-- Witness for C7 at a concrete input (the all-zero distribution oracle,
whose expansion is a single pruned root node). -/
theorem claim_C7_witness :
    DepthOK 0 1 0 (predictTrie (fun _ _ => 0) [] 1 0 0) :=
  (claim_C7 (fun _ _ => 0) [] 1 0).1

/-- Probability-mass pruning along an expansion result: every child byte of
every node has nonzero mass in the distribution of that node and clears the
absolute threshold `minProb` once multiplied into the accumulated path
probability. -/
inductive PruneOK (minProb : ℚ) : ℚ → Trie → Prop where
  | node (dist : Dist) (ch : List (Byte × Trie)) (probSoFar : ℚ)
      (hch : ∀ p ∈ ch, dist p.1 ≠ 0 ∧ minProb ≤ probSoFar * dist p.1)
      (hrec : ∀ p ∈ ch, PruneOK minProb (probSoFar * dist p.1) p.2) :
      PruneOK minProb probSoFar (.node dist ch)

/-- Both branches of `_predict_trie` report the distribution of the node
itself. -/
theorem predictTrie_dist (oracle : Key → Dist) (pfx : Key)
    (probSoFar minProb : ℚ) (depth : Nat) :
    (predictTrie oracle pfx probSoFar minProb depth).dist = oracle pfx := by
  rw [predictTrie]
  split <;> rfl

theorem mem_eligibleOf {dist : Dist} {probSoFar minProb : ℚ} {b : Byte} :
    b ∈ eligibleOf dist probSoFar minProb ↔
      dist b ≠ 0 ∧ minProb ≤ probSoFar * dist b := by
  simp [eligibleOf, List.mem_filter]

theorem predictTrie_pruneOK_aux (oracle : Key → Dist) (minProb : ℚ) :
    ∀ (fuel : Nat) (pfx : Key) (probSoFar : ℚ) (depth : Nat),
      5 - depth ≤ fuel →
      PruneOK minProb probSoFar
        (predictTrie oracle pfx probSoFar minProb depth) := by
  intro fuel
  induction fuel with
  | zero =>
    intro pfx prob depth hf
    have h5 : 5 ≤ depth := by omega
    rw [predictTrie]
    rw [dif_pos (Or.inl h5)]
    exact PruneOK.node (oracle pfx) [] prob
      (fun p hp => absurd hp (List.not_mem_nil p))
      (fun p hp => absurd hp (List.not_mem_nil p))
  | succ n ih =>
    intro pfx prob depth hf
    by_cases h : 5 ≤ depth ∨ 3 ≤ (eligibleOf (oracle pfx) prob minProb).length
    · rw [predictTrie]
      rw [dif_pos h]
      exact PruneOK.node (oracle pfx) [] prob
        (fun p hp => absurd hp (List.not_mem_nil p))
        (fun p hp => absurd hp (List.not_mem_nil p))
    · rw [predictTrie]
      rw [dif_neg h]
      refine PruneOK.node _ _ prob ?_ ?_
      · intro p hp
        rw [List.mem_map] at hp
        obtain ⟨b, hb, rfl⟩ := hp
        exact mem_eligibleOf.mp b.2
      · intro p hp
        rw [List.mem_map] at hp
        obtain ⟨b, hb, rfl⟩ := hp
        exact ih (pfx ++ [b.1]) (prob * oracle pfx b.1) (depth + 1) (by omega)

/-- C8 (confirmed): in every trie `_predict_trie` returns, a byte `b`
appears among the children of a node only if the distribution of that node
gives it nonzero mass and the accumulated probability times that mass is at
least `min_prob`; each such child is the expansion of the extended prefix
with accumulated probability multiplied by the byte mass, one level
deeper. -/
theorem claim_C8 (oracle : Key → Dist) (pfx : Key) (probSoFar minProb : ℚ)
    (depth : Nat) :
    PruneOK minProb probSoFar
      (predictTrie oracle pfx probSoFar minProb depth) ∧
    ∀ p ∈ (predictTrie oracle pfx probSoFar minProb depth).children,
      p.2 = predictTrie oracle (pfx ++ [p.1])
        (probSoFar * (predictTrie oracle pfx probSoFar minProb depth).dist p.1)
        minProb (depth + 1) := by
  constructor
  · exact predictTrie_pruneOK_aux oracle minProb (5 - depth) pfx probSoFar
      depth (le_refl _)
  · intro p hp
    rw [predictTrie_dist]
    by_cases h : 5 ≤ depth ∨ 3 ≤ (eligibleOf (oracle pfx) probSoFar minProb).length
    · rw [predictTrie] at hp
      rw [dif_pos h] at hp
      simp [Trie.children] at hp
    · rw [predictTrie] at hp
      rw [dif_neg h] at hp
      simp only [Trie.children] at hp
      rw [List.mem_map] at hp
      obtain ⟨b, hb, rfl⟩ := hp
      rfl

/-- Witness for C8 at a concrete input (all-zero oracle; its expansion has no
children, and all conditions hold of it). -/
theorem claim_C8_witness :
    PruneOK 0 1 (predictTrie (fun _ _ => 0) [] 1 0 0) ∧
    ∀ p ∈ (predictTrie (fun _ _ => 0) [] 1 0 0).children,
      p.2 = predictTrie (fun _ _ => 0) ([] ++ [p.1])
        (1 * (predictTrie (fun _ _ => 0) [] 1 0 0).dist p.1) 0 (0 + 1) :=
  claim_C8 (fun _ _ => 0) [] 1 0 0

/-! ## The batch coordinator -/

/-- C9 (confirmed): `predict_batch` maps each input `(prefix, min_prob)`, in
input order, to the expansion of that prefix with initial probability 1 and
that min_prob — one result per input, the i-th output matching the i-th
input — and on the empty input list returns `[]` without consulting the
distribution source at all (the result is the same for every oracle, because
the early return precedes any engine call). -/
theorem claim_C9 (oracle : Key → Dist) (inputs : List (Key × ℚ)) :
    (∀ oracle' : Key → Dist, predictBatch oracle' [] = []) ∧
    (predictBatch oracle inputs).length = inputs.length ∧
    ∀ i : Nat, (predictBatch oracle inputs)[i]?
      = (inputs[i]?).map (fun p => predictTrie oracle p.1 1 p.2 0) := by
  refine ⟨fun _ => rfl, ?_, ?_⟩
  · unfold predictBatch
    by_cases h : inputs.isEmpty
    · rw [if_pos h]
      rw [List.isEmpty_iff] at h
      rw [h]
      rfl
    · rw [if_neg h]
      exact List.length_map _ _
  · intro i
    unfold predictBatch
    by_cases h : inputs.isEmpty
    · rw [if_pos h]
      rw [List.isEmpty_iff] at h
      rw [h]
      simp
    · rw [if_neg h]
      simp

end DashEngine
